import Mathlib

/-!
Verification development for the MIDI2LR command-mapping core.

The repository sources under consideration are:
* `src/Source/CommandTableModel.h` — declares `CommandTableModel` with its
  private state `command_map_`, `commands_`, `current_sort{2, true}`,
  `prior_sort{2, true}` and the operations `sortOrderChanged`, `addRow`,
  `removeRow`, `removeAllRows`, `buildFromXml`, `getRowForMessage`.
* `src/Source/Main.cpp` — the application lifecycle (`initialise`, `shutdown`,
  `anotherInstanceStarted`) and the `--LRSHUTDOWN` command-line flag.
* `src/Source/MainWindow.h` — window chrome, no algorithmic content.

The method bodies of `CommandMap` and `CommandTableModel` are not part of the
sources; where a definition below embeds such a missing body it is marked
`Modelled from the spec:` and follows the specification's words.
-/

namespace MIDI2LR

/-- Modelled from the spec: `RSJ::MsgIdEnum` is only forward-declared in
`CommandTableModel.h`; the spec (§3) describes the message kind as a closed
enumeration "NoteOn, ControlChange, ProgramChange, PitchBend". -/
inductive MsgIdEnum where
  | noteOn
  | controlChange
  | programChange
  | pitchBend
deriving DecidableEq, Repr

/-- Modelled from the spec: `RSJ::MidiMessageId` is only forward-declared in
`CommandTableModel.h`; the spec (§3) gives its fields as channel (integer,
1–16), data (integer, 0–127) and kind.  Fields are `Int` as in the C++ `int`
signature of `addRow(int midi_channel, int midi_data, ...)`. -/
structure MidiMessageId where
  channel : Int
  data : Int
  kind : MsgIdEnum
deriving DecidableEq, Repr

/-- Modelled from the spec: `CommandMap` (only forward-declared in the
sources) is "the authoritative registry: identity → command-name binding"
(§2); embedded as an association list whose key uniqueness is proved, not
assumed. -/
abbrev CommandMap := List (MidiMessageId × String)

/-- Modelled from the spec: `bind(identity, command_name)` "inserts or
replaces the binding for `identity`.  No error: always succeeds; replacing is
silent and total" (§4.1). -/
def bind : CommandMap → MidiMessageId → String → CommandMap
  | [], id, nm => [(id, nm)]
  | p :: rest, id, nm =>
      if p.1 = id then (id, nm) :: rest else p :: bind rest id nm

/-- Modelled from the spec: `unbind(identity)` "removes the binding if
present; no-op (not an error) if absent" (§4.1). -/
def unbind : CommandMap → MidiMessageId → CommandMap
  | [], _ => []
  | p :: rest, id =>
      if p.1 = id then unbind rest id else p :: unbind rest id

/-- Modelled from the spec: `lookup(identity) -> Option<command_name>`:
"pure query, no side effect" (§4.1). -/
def lookup (m : CommandMap) (id : MidiMessageId) : Option String :=
  (m.find? (fun p => p.1 = id)).map (fun p => p.2)

/-- Modelled from the spec: `all_identities()` is the "snapshot of current
keys, used by the table layer to rebuild its row sequence" (§4.1). -/
def allIdentities (m : CommandMap) : List MidiMessageId :=
  m.map (fun p => p.1)

/-- Modelled from the spec: `clear()` "removes all bindings" (§4.1). -/
def clear (_m : CommandMap) : CommandMap := []

theorem lookup_bind_self (m : CommandMap) (id : MidiMessageId) (nm : String) :
    lookup (bind m id nm) id = some nm := by
  induction m with
  | nil => simp [bind, lookup, List.find?]
  | cons p rest ih =>
      by_cases h : p.1 = id
      · simp [bind, lookup, h, List.find?]
      · simpa [bind, lookup, h, List.find?] using ih

theorem lookup_bind_of_ne (m : CommandMap) {id id' : MidiMessageId} (nm : String)
    (h : id' ≠ id) : lookup (bind m id nm) id' = lookup m id' := by
  induction m with
  | nil => simp [bind, lookup, List.find?, Ne.symm h]
  | cons p rest ih =>
      by_cases hp : p.1 = id
      · simp [bind, lookup, List.find?, hp, Ne.symm h]
      · by_cases hp' : p.1 = id'
        · simp [bind, lookup, List.find?, hp, hp', h]
        · simp [bind, lookup, List.find?, hp, hp'] at ih ⊢
          exact ih

theorem allIdentities_bind_of_mem {m : CommandMap} {id : MidiMessageId} (nm : String)
    (hmem : id ∈ allIdentities m) : allIdentities (bind m id nm) = allIdentities m := by
  induction m with
  | nil => simp [allIdentities] at hmem
  | cons p rest ih =>
      by_cases h : p.1 = id
      · simp [bind, allIdentities, h]
      · have hmem' : id ∈ allIdentities rest := by
          rcases List.mem_cons.mp hmem with h' | h'
          · exact absurd h'.symm h
          · exact h'
        have hrec := ih hmem'
        simp only [allIdentities] at hrec ⊢
        simp [bind, h, hrec]

theorem allIdentities_bind_of_not_mem {m : CommandMap} {id : MidiMessageId} (nm : String)
    (hmem : id ∉ allIdentities m) :
    allIdentities (bind m id nm) = allIdentities m ++ [id] := by
  induction m with
  | nil => simp [bind, allIdentities]
  | cons p rest ih =>
      have h : ¬ p.1 = id := fun hh => hmem (by simp [allIdentities, hh])
      have hmem' : id ∉ allIdentities rest := fun hh =>
        hmem (List.mem_cons_of_mem _ hh)
      have hrec := ih hmem'
      simp only [allIdentities] at hrec ⊢
      simp [bind, h, hrec]

theorem nodup_allIdentities_bind {m : CommandMap} (id : MidiMessageId) (nm : String)
    (h : (allIdentities m).Nodup) : (allIdentities (bind m id nm)).Nodup := by
  by_cases hmem : id ∈ allIdentities m
  · rw [allIdentities_bind_of_mem nm hmem]
    exact h
  · rw [allIdentities_bind_of_not_mem nm hmem]
    refine List.Nodup.append h (List.nodup_singleton id) ?_
    intro a ha hb
    rw [List.mem_singleton] at hb
    exact hmem (hb ▸ ha)

theorem mem_bind {m : CommandMap} {id : MidiMessageId} {nm : String}
    {q : MidiMessageId × String} (h : q ∈ bind m id nm) : q = (id, nm) ∨ q ∈ m := by
  induction m with
  | nil => simpa [bind] using h
  | cons p rest ih =>
      by_cases hp : p.1 = id
      · simp only [bind, if_pos hp] at h
        rcases List.mem_cons.mp h with h | h
        · exact Or.inl h
        · exact Or.inr (List.mem_cons_of_mem _ h)
      · simp only [bind, if_neg hp] at h
        rcases List.mem_cons.mp h with h | h
        · refine Or.inr ?_
          rw [h]
          exact List.mem_cons_self p rest
        · rcases ih h with h' | h'
          · exact Or.inl h'
          · exact Or.inr (List.mem_cons_of_mem _ h')

theorem lookup_eq_none_iff (m : CommandMap) (id : MidiMessageId) :
    lookup m id = none ↔ id ∉ allIdentities m := by
  induction m with
  | nil => simp [lookup, allIdentities, List.find?]
  | cons p rest ih =>
      by_cases h : p.1 = id
      · simp [lookup, allIdentities, List.find?, h]
      · have hne : ¬ id = p.1 := fun hh => h hh.symm
        simpa [lookup, allIdentities, List.find?, h, hne] using ih

theorem lookup_isSome_iff (m : CommandMap) (id : MidiMessageId) :
    (lookup m id).isSome ↔ id ∈ allIdentities m := by
  constructor
  · intro h
    by_contra hmem
    rw [(lookup_eq_none_iff m id).mpr hmem] at h
    simp at h
  · intro hmem
    rcases hs : lookup m id with _ | nm
    · exact absurd hmem ((lookup_eq_none_iff m id).mp hs)
    · simp

theorem unbind_eq_self {m : CommandMap} {id : MidiMessageId}
    (h : id ∉ allIdentities m) : unbind m id = m := by
  induction m with
  | nil => rfl
  | cons p rest ih =>
      have h1 : ¬ p.1 = id := fun hh => h (by simp [allIdentities, hh])
      have h2 : id ∉ allIdentities rest := fun hh => h (List.mem_cons_of_mem _ hh)
      simp [unbind, h1, ih h2]

theorem allIdentities_unbind (m : CommandMap) (id : MidiMessageId) :
    allIdentities (unbind m id) = (allIdentities m).filter (fun k => k ≠ id) := by
  induction m with
  | nil => rfl
  | cons p rest ih =>
      by_cases h : p.1 = id
      · simp only [unbind, if_pos h, allIdentities, List.map_cons, List.filter_cons] at ih ⊢
        simp [h, ih]
      · simp only [unbind, if_neg h, allIdentities, List.map_cons, List.filter_cons] at ih ⊢
        simp [h, ih]

/-- Modelled from the spec: the persisted document (§6) is "a tree of
elements, one root plus one child element per binding, attributes: `Channel`
(1–16), `Data`/`CC`/`Note` number (0–127), `MessageType` (symbolic enumeration
name), `CommandName` (string)".  One child element is one record. -/
structure XmlRecord where
  channel : Int
  data : Int
  msgType : String
  commandName : String
deriving DecidableEq, Repr

/-- Modelled from the spec: the symbolic enumeration name written for the
`MessageType` attribute (§6). -/
def msgKindName : MsgIdEnum → String
  | .noteOn => "NoteOn"
  | .controlChange => "ControlChange"
  | .programChange => "ProgramChange"
  | .pitchBend => "PitchBend"

/-- Modelled from the spec: parsing a `MessageType` attribute; an unknown
kind name does not parse (the record is then malformed, §4.1/§7). -/
def parseMsgKind (s : String) : Option MsgIdEnum :=
  if s = "NoteOn" then some .noteOn
  else if s = "ControlChange" then some .controlChange
  else if s = "ProgramChange" then some .programChange
  else if s = "PitchBend" then some .pitchBend
  else none

/-- Modelled from the spec: decoding one record; "entries with malformed
fields (out-of-range channel/data, unknown kind) are skipped" (§4.1), so a
malformed record decodes to `none`. -/
def decodeRecord (r : XmlRecord) : Option (MidiMessageId × String) :=
  match parseMsgKind r.msgType with
  | none => none
  | some k =>
      if 1 ≤ r.channel ∧ r.channel ≤ 16 ∧ 0 ≤ r.data ∧ r.data ≤ 127 then
        some (⟨r.channel, r.data, k⟩, r.commandName)
      else none

/-- Modelled from the spec: encoding one binding; "every current binding
produces exactly one record; field values are written in the same
units/ranges used internally" (§4.3). -/
def encodeRecord (p : MidiMessageId × String) : XmlRecord :=
  ⟨p.1.channel, p.1.data, msgKindName p.1.kind, p.2⟩

/-- Modelled from the spec: processing one record during a load; a record
that decodes is re-`bind`-ed, a malformed one is skipped (§4.1). -/
def deserializeStep (acc : CommandMap) (r : XmlRecord) : CommandMap :=
  match decodeRecord r with
  | some q => bind acc q.1 q.2
  | none => acc

/-- Modelled from the spec: `deserialize(document)` "must `clear()` first,
then re-`bind` every entry found; entries with malformed fields ... are
skipped, not fatal" (§4.1). -/
def deserialize (m : CommandMap) (doc : List XmlRecord) : CommandMap :=
  doc.foldl deserializeStep (clear m)

/-- Modelled from the spec: `serialize()` encodes "each binding as one
structured record" (§4.3). -/
def serialize (m : CommandMap) : List XmlRecord :=
  m.map encodeRecord

/-- A record is well-formed when it decodes (in-range channel and data, known
kind name), per §4.1/§7 of the spec. -/
def wellFormedRecord (r : XmlRecord) : Bool :=
  (decodeRecord r).isSome

/-- An identity respects the field ranges of the spec's data model (§3). -/
def idInRange (id : MidiMessageId) : Prop :=
  1 ≤ id.channel ∧ id.channel ≤ 16 ∧ 0 ≤ id.data ∧ id.data ≤ 127

theorem parseMsgKind_msgKindName (k : MsgIdEnum) :
    parseMsgKind (msgKindName k) = some k := by
  cases k <;> rfl

theorem decodeRecord_encodeRecord {id : MidiMessageId} (nm : String)
    (h : idInRange id) : decodeRecord (encodeRecord (id, nm)) = some (id, nm) := by
  rcases h with ⟨h1, h2, h3, h4⟩
  simp [decodeRecord, encodeRecord, parseMsgKind_msgKindName, h1, h2, h3, h4]

theorem decodeRecord_idInRange {r : XmlRecord} {q : MidiMessageId × String}
    (h : decodeRecord r = some q) : idInRange q.1 := by
  unfold decodeRecord at h
  split at h
  · exact absurd h (by simp)
  · split at h
    · rename_i hc
      cases h
      exact hc
    · exact absurd h (by simp)

/-- The decoded identity of a record, when the record is well-formed. -/
def recordId (r : XmlRecord) : Option MidiMessageId :=
  (decodeRecord r).map (fun q => q.1)

theorem nodup_allIdentities_foldl_deserializeStep :
    ∀ (doc : List XmlRecord) (acc : CommandMap),
      (allIdentities acc).Nodup →
      (allIdentities (doc.foldl deserializeStep acc)).Nodup := by
  intro doc
  induction doc with
  | nil => intro acc h; exact h
  | cons r rest ih =>
      intro acc h
      rw [List.foldl_cons]
      refine ih _ ?_
      unfold deserializeStep
      rcases decodeRecord r with _ | q
      · exact h
      · exact nodup_allIdentities_bind _ _ h

theorem nodup_allIdentities_deserialize (m : CommandMap) (doc : List XmlRecord) :
    (allIdentities (deserialize m doc)).Nodup :=
  nodup_allIdentities_foldl_deserializeStep doc (clear m) (by simp [clear, allIdentities])

theorem idInRange_of_mem_foldl_deserializeStep :
    ∀ (doc : List XmlRecord) (acc : CommandMap),
      (∀ p ∈ acc, idInRange p.1) →
      ∀ p ∈ doc.foldl deserializeStep acc, idInRange p.1 := by
  intro doc
  induction doc with
  | nil => intro acc h; exact h
  | cons r rest ih =>
      intro acc h
      rw [List.foldl_cons]
      refine ih _ ?_
      intro p hp
      unfold deserializeStep at hp
      rcases hd : decodeRecord r with _ | q
      · rw [hd] at hp
        exact h p hp
      · rw [hd] at hp
        rcases mem_bind hp with h' | h'
        · rw [h']
          exact decodeRecord_idInRange hd
        · exact h p h'

theorem idInRange_of_mem_deserialize {m : CommandMap} {doc : List XmlRecord}
    {p : MidiMessageId × String} (hp : p ∈ deserialize m doc) : idInRange p.1 :=
  idInRange_of_mem_foldl_deserializeStep doc (clear m) (by simp [clear]) p hp

theorem length_allIdentities (m : CommandMap) : (allIdentities m).length = m.length :=
  List.length_map m _

theorem length_bind_of_not_mem {m : CommandMap} {id : MidiMessageId} (nm : String)
    (h : id ∉ allIdentities m) : (bind m id nm).length = m.length + 1 := by
  have := allIdentities_bind_of_not_mem nm h
  have hlen := congrArg List.length this
  rw [length_allIdentities, List.length_append, length_allIdentities m] at hlen
  simpa using hlen

theorem foldl_deserializeStep_length :
    ∀ (doc : List XmlRecord) (acc : CommandMap),
      (∀ r ∈ doc, (decodeRecord r).isSome) →
      (doc.filterMap recordId).Nodup →
      (∀ i ∈ doc.filterMap recordId, i ∉ allIdentities acc) →
      (doc.foldl deserializeStep acc).length = acc.length + doc.length := by
  intro doc
  induction doc with
  | nil => intro acc _ _ _; simp
  | cons r rest ih =>
      intro acc hwf hnd hfresh
      rcases Option.isSome_iff_exists.mp (hwf r (List.mem_cons_self r rest)) with ⟨q, hq⟩
      have hrid : recordId r = some q.1 := by simp [recordId, hq]
      have hfm : (r :: rest).filterMap recordId = q.1 :: rest.filterMap recordId := by
        rw [List.filterMap_cons, hrid]
      rw [hfm] at hnd hfresh
      have hq1fresh : q.1 ∉ allIdentities acc :=
        hfresh q.1 (List.mem_cons_self _ _)
      rw [List.foldl_cons]
      have hstep : deserializeStep acc r = bind acc q.1 q.2 := by
        simp [deserializeStep, hq]
      rw [hstep]
      have hrest :
          (rest.foldl deserializeStep (bind acc q.1 q.2)).length =
            (bind acc q.1 q.2).length + rest.length := by
        refine ih _ (fun r' hr' => hwf r' (List.mem_cons_of_mem _ hr')) hnd.of_cons ?_
        intro i hi
        rw [allIdentities_bind_of_not_mem _ hq1fresh]
        intro hmem
        rcases List.mem_append.mp hmem with h' | h'
        · exact hfresh i (List.mem_cons_of_mem _ hi) h'
        · rw [List.mem_singleton] at h'
          exact (List.rel_of_pairwise_cons hnd hi) h'.symm
      rw [hrest, length_bind_of_not_mem _ hq1fresh]
      simp [Nat.add_assoc, Nat.add_comm 1 rest.length]

/-- Applying a sequence of `bind` calls in order (used to state the
"last bind wins" property of §8 over the registry of §4.1). -/
def bindAll (m : CommandMap) (calls : List (MidiMessageId × String)) : CommandMap :=
  calls.foldl (fun acc c => bind acc c.1 c.2) m

theorem bindAll_append (m : CommandMap) (l : List (MidiMessageId × String))
    (c : MidiMessageId × String) :
    bindAll m (l ++ [c]) = bind (bindAll m l) c.1 c.2 := by
  simp [bindAll]

theorem nodup_allIdentities_bindAll (m : CommandMap)
    (calls : List (MidiMessageId × String)) (h : (allIdentities m).Nodup) :
    (allIdentities (bindAll m calls)).Nodup := by
  induction calls generalizing m with
  | nil => exact h
  | cons c rest ih =>
      rw [bindAll, List.foldl_cons]
      exact ih _ (nodup_allIdentities_bind _ _ h)

/-- Lexicographic comparison on a (numeric, string) sort key: the numeric
part decides, the string part breaks numeric ties. -/
def kle (a b : Int × String) : Prop :=
  a.1 < b.1 ∨ (a.1 = b.1 ∧ a.2 ≤ b.2)

instance (a b : Int × String) : Decidable (kle a b) :=
  decidable_of_iff (a.1 < b.1 ∨ (a.1 = b.1 ∧ a.2 ≤ b.2)) Iff.rfl

theorem kle_refl (a : Int × String) : kle a a := Or.inr ⟨rfl, le_refl _⟩

theorem kle_trans {a b c : Int × String} (h1 : kle a b) (h2 : kle b c) : kle a c := by
  rcases h1 with h1 | ⟨h1e, h1s⟩
  · rcases h2 with h2 | ⟨h2e, _⟩
    · exact Or.inl (lt_trans h1 h2)
    · exact Or.inl (h2e ▸ h1)
  · rcases h2 with h2 | ⟨h2e, h2s⟩
    · exact Or.inl (h1e ▸ h2)
    · exact Or.inr ⟨h1e.trans h2e, le_trans h1s h2s⟩

theorem kle_total (a b : Int × String) : kle a b ∨ kle b a := by
  rcases lt_trichotomy a.1 b.1 with h | h | h
  · exact Or.inl (Or.inl h)
  · rcases le_total a.2 b.2 with hs | hs
    · exact Or.inl (Or.inr ⟨h, hs⟩)
    · exact Or.inr (Or.inr ⟨h.symm, hs⟩)
  · exact Or.inr (Or.inl h)

theorem kle_antisymm {a b : Int × String} (h1 : kle a b) (h2 : kle b a) : a = b := by
  rcases h1 with h1 | ⟨h1e, h1s⟩
  · rcases h2 with h2 | ⟨h2e, _⟩
    · exact absurd (lt_trans h1 h2) (lt_irrefl _)
    · exact absurd h1 (h2e ▸ lt_irrefl _)
  · rcases h2 with h2 | ⟨h2e, h2s⟩
    · exact absurd h2 (h1e ▸ lt_irrefl _)
    · exact Prod.ext h1e (le_antisymm h1s h2s)

/-- Numeric index of a message kind, in declaration order of the closed
enumeration (§3). -/
def msgKindIdx : MsgIdEnum → Int
  | .noteOn => 0
  | .controlChange => 1
  | .programChange => 2
  | .pitchBend => 3

/-- Modelled from the spec: the sort key of a row in a given column.
`row_content(row_index, column_id)`: "column 0/1/2 → channel/data/kind of the
identity at that row; further columns (command name, value) are resolved by
looking up the identity in CommandMap" (§4.2).  Numeric columns use the
numeric slot of the key, command-text columns the string slot. -/
def cellKey (m : CommandMap) (col : Nat) (x : MidiMessageId) : Int × String :=
  match col with
  | 0 => (x.channel, "")
  | 1 => (x.data, "")
  | 2 => (msgKindIdx x.kind, "")
  | _ => (0, (lookup m x).getD "")

/-- Comparison of two rows in one column with a direction flag: ascending
compares the keys directly, descending flips them. -/
def dirLe (key : MidiMessageId → Int × String) (ascending : Bool)
    (x y : MidiMessageId) : Prop :=
  if ascending then kle (key x) (key y) else kle (key y) (key x)

instance (key : MidiMessageId → Int × String) (ascending : Bool)
    (x y : MidiMessageId) : Decidable (dirLe key ascending x y) := by
  unfold dirLe
  exact inferInstance

/-- Modelled from the spec: the row ordering used by
`CommandTableModel::Sort`: "re-orders the row sequence by the requested
column; ties broken using the *previous* sort key/direction (stored in
`prior_sort`)" (§4.2). -/
def sortRel (m : CommandMap) (cur pr : Nat × Bool) (x y : MidiMessageId) : Prop :=
  if cellKey m cur.1 x = cellKey m cur.1 y then dirLe (cellKey m pr.1) pr.2 x y
  else dirLe (cellKey m cur.1) cur.2 x y

instance (m : CommandMap) (cur pr : Nat × Bool) (x y : MidiMessageId) :
    Decidable (sortRel m cur pr x y) := by
  unfold sortRel
  exact inferInstance

theorem dirLe_refl_of_key_eq {key : MidiMessageId → Int × String} {ascending : Bool}
    {x y : MidiMessageId} (h : key x = key y) : dirLe key ascending x y := by
  unfold dirLe
  cases ascending
  · simpa using h ▸ kle_refl (key x)
  · simpa using h ▸ kle_refl (key x)

theorem dirLe_total (key : MidiMessageId → Int × String) (ascending : Bool)
    (x y : MidiMessageId) : dirLe key ascending x y ∨ dirLe key ascending y x := by
  unfold dirLe
  cases ascending
  · simpa using (kle_total (key y) (key x))
  · simpa using (kle_total (key x) (key y))

theorem dirLe_trans {key : MidiMessageId → Int × String} {ascending : Bool}
    {x y z : MidiMessageId} (h1 : dirLe key ascending x y)
    (h2 : dirLe key ascending y z) : dirLe key ascending x z := by
  unfold dirLe at h1 h2 ⊢
  cases ascending
  · simp only [if_neg Bool.false_ne_true] at h1 h2 ⊢
    exact kle_trans h2 h1
  · simp only [if_pos rfl] at h1 h2 ⊢
    exact kle_trans h1 h2

theorem dirLe_key_antisymm {key : MidiMessageId → Int × String} {ascending : Bool}
    {x y : MidiMessageId} (h1 : dirLe key ascending x y)
    (h2 : dirLe key ascending y x) : key x = key y := by
  unfold dirLe at h1 h2
  cases ascending
  · simp only [if_neg Bool.false_ne_true] at h1 h2
    exact kle_antisymm h2 h1
  · simp only [if_pos rfl] at h1 h2
    exact kle_antisymm h1 h2

theorem dirLe_congr_left {key : MidiMessageId → Int × String} {ascending : Bool}
    {x x' y : MidiMessageId} (h : key x = key x') :
    dirLe key ascending x y → dirLe key ascending x' y := by
  unfold dirLe
  cases ascending <;> simp <;> rw [h] <;> exact id

theorem dirLe_congr_right {key : MidiMessageId → Int × String} {ascending : Bool}
    {x y y' : MidiMessageId} (h : key y = key y') :
    dirLe key ascending x y → dirLe key ascending x y' := by
  unfold dirLe
  cases ascending <;> simp <;> rw [h] <;> exact id

instance (m : CommandMap) (cur pr : Nat × Bool) :
    IsTotal MidiMessageId (sortRel m cur pr) := by
  constructor
  intro x y
  unfold sortRel
  by_cases h : cellKey m cur.1 x = cellKey m cur.1 y
  · rw [if_pos h, if_pos h.symm]
    exact dirLe_total _ _ x y
  · rw [if_neg h, if_neg (fun hh => h hh.symm)]
    exact dirLe_total _ _ x y

instance (m : CommandMap) (cur pr : Nat × Bool) :
    IsTrans MidiMessageId (sortRel m cur pr) := by
  constructor
  intro x y z h1 h2
  unfold sortRel at h1 h2 ⊢
  by_cases hxy : cellKey m cur.1 x = cellKey m cur.1 y
  · rw [if_pos hxy] at h1
    by_cases hyz : cellKey m cur.1 y = cellKey m cur.1 z
    · rw [if_pos hyz] at h2
      rw [if_pos (hxy.trans hyz)]
      exact dirLe_trans h1 h2
    · rw [if_neg hyz] at h2
      rw [if_neg (fun hh => hyz (hxy.symm.trans hh))]
      exact dirLe_congr_left hxy.symm h2
  · rw [if_neg hxy] at h1
    by_cases hyz : cellKey m cur.1 y = cellKey m cur.1 z
    · rw [if_pos hyz] at h2
      rw [if_neg (fun hh => hxy (hh.trans hyz.symm))]
      exact dirLe_congr_right hyz h1
    · rw [if_neg hyz] at h2
      by_cases hxz : cellKey m cur.1 x = cellKey m cur.1 z
      · have h1' : dirLe (cellKey m cur.1) cur.2 z y := dirLe_congr_left hxz h1
        have hcon : cellKey m cur.1 y = cellKey m cur.1 z := dirLe_key_antisymm h2 h1'
        exact absurd hcon hyz
      · rw [if_neg hxz]
        exact dirLe_trans h1 h2

theorem filter_orderedInsert' {α : Type} (r : α → α → Prop) [DecidableRel r]
    [IsTrans α r] (p : α → Bool) (a : α) :
    ∀ l : List α, l.Sorted r →
      (l.orderedInsert r a).filter p =
        if p a then (l.filter p).orderedInsert r a else l.filter p := by
  intro l
  induction l with
  | nil =>
      intro _
      cases hpa : p a <;> simp [List.orderedInsert, hpa]
  | cons b l ih =>
      intro hs
      by_cases hr : r a b
      · rw [List.orderedInsert_of_le r _ hr]
        cases hpa : p a
        · simp [List.filter_cons, hpa]
        · have hall : ∀ c ∈ b :: l, r a c := by
            intro c hc
            rcases List.mem_cons.mp hc with h' | h'
            · exact h' ▸ hr
            · exact IsTrans.trans _ _ _ hr (List.rel_of_sorted_cons hs c h')
          rw [List.filter_cons_of_pos (by rw [hpa])]
          rcases hfb : (b :: l).filter p with _ | ⟨c, cs⟩
          · simp [List.orderedInsert]
          · have hc : c ∈ b :: l := by
              have : c ∈ (b :: l).filter p := by rw [hfb]; exact List.mem_cons_self c cs
              exact List.mem_of_mem_filter this
            rw [List.orderedInsert_of_le r _ (hall c hc)]
            simp
      · rw [show (b :: l).orderedInsert r a = b :: l.orderedInsert r a by
            simp [List.orderedInsert, hr]]
        have ihs := ih hs.of_cons
        cases hpa : p a
        · rw [hpa] at ihs
          simp only [if_neg Bool.false_ne_true] at ihs
          cases hpb : p b
          · rw [List.filter_cons_of_neg (by rw [hpb]; exact Bool.false_ne_true),
              List.filter_cons_of_neg (by rw [hpb]; exact Bool.false_ne_true), ihs]
            simp
          · rw [List.filter_cons_of_pos (by rw [hpb]),
              List.filter_cons_of_pos (by rw [hpb]), ihs]
            simp
        · rw [hpa] at ihs
          simp only [if_pos rfl] at ihs
          cases hpb : p b
          · rw [List.filter_cons_of_neg (by rw [hpb]; exact Bool.false_ne_true),
              List.filter_cons_of_neg (by rw [hpb]; exact Bool.false_ne_true), ihs]
            simp
          · rw [List.filter_cons_of_pos (by rw [hpb]),
              List.filter_cons_of_pos (by rw [hpb]), ihs,
              show (b :: l.filter p).orderedInsert r a = b :: (l.filter p).orderedInsert r a by
                simp [List.orderedInsert, hr]]
            simp

theorem filter_insertionSort' {α : Type} (r : α → α → Prop) [DecidableRel r]
    [IsTotal α r] [IsTrans α r] (p : α → Bool) :
    ∀ l : List α, (l.insertionSort r).filter p = (l.filter p).insertionSort r := by
  intro l
  induction l with
  | nil => rfl
  | cons a l ih =>
      rw [show (a :: l).insertionSort r = (l.insertionSort r).orderedInsert r a from rfl]
      rw [filter_orderedInsert' r p a _ (List.sorted_insertionSort r l)]
      cases hpa : p a
      · rw [List.filter_cons_of_neg (by rw [hpa]; exact Bool.false_ne_true), ih]
        simp
      · rw [List.filter_cons_of_pos (by rw [hpa]), ih]
        simp [List.insertionSort]

/-- The state of `CommandTableModel` (`src/Source/CommandTableModel.h`,
lines 65–71): the pointed-to registry `command_map_`, the row sequence
`commands_`, and the sort state `current_sort`/`prior_sort`
(`std::pair<int, bool>` of column id and ascending flag). -/
structure CommandTableModel where
  command_map_ : CommandMap
  commands_ : List MidiMessageId
  current_sort : Nat × Bool
  prior_sort : Nat × Bool
deriving DecidableEq, Repr

/-- The freshly constructed model: `CommandTableModel.h` initialises
`command_map_{nullptr}`, `commands_` empty, `current_sort{2, true}` and
`prior_sort{2, true}` (lines 67–70); `Init` points `command_map_` at the
application's (initially empty) registry. -/
def CommandTableModel.init : CommandTableModel :=
  { command_map_ := []
    commands_ := []
    current_sort := (2, true)
    prior_sort := (2, true) }

/-- Modelled from the spec: the private `CommandTableModel::Sort` re-orders
`commands_` by `current_sort` with ties "broken using the *previous* sort
key/direction (stored in `prior_sort`)" producing "a stable, predictable
ordering" (§4.2); embedded as a stable insertion sort under `sortRel`. -/
def applySort (st : CommandTableModel) : CommandTableModel :=
  { st with
      commands_ :=
        st.commands_.insertionSort
          (sortRel st.command_map_ st.current_sort st.prior_sort) }

/-- Modelled from the spec: `sortOrderChanged(newSortColumnId, isForwards)`
(declared in `CommandTableModel.h`, line 41) services a sort request: "After
sorting, `prior_sort` is set to the previous `current_sort`, and
`current_sort` to the new request" (§4.2). -/
def sortOrderChanged (st : CommandTableModel) (newSortColumnId : Nat)
    (isForwards : Bool) : CommandTableModel :=
  applySort
    { st with
        prior_sort := st.current_sort
        current_sort := (newSortColumnId, isForwards) }

/-- Modelled from the spec: `addRow(midi_channel, midi_data, msgType)`
(declared in `CommandTableModel.h`, line 51) "constructs a
MidiMessageIdentity, appends it to the row sequence ... Re-applies the
current sort afterward" (§4.2).  Per the §8 example ("row_count unchanged at
1" when the same identity is bound twice) and the §3 invariant (no duplicate
row entries), an identity that is already a row is not appended again. -/
def addRow (st : CommandTableModel) (midi_channel midi_data : Int)
    (msgType : MsgIdEnum) : CommandTableModel :=
  if (⟨midi_channel, midi_data, msgType⟩ : MidiMessageId) ∈ st.commands_ then st
  else
    applySort
      { st with
          commands_ := st.commands_ ++ [⟨midi_channel, midi_data, msgType⟩] }

/-- Modelled from the spec: `removeRow(row)` (declared in
`CommandTableModel.h`, line 54) removes the entry when `row` lies in
`[0, row_count)`; "removing an out-of-range index is a precondition
violation (reported, not silently ignored)" and "must not corrupt the row
sequence or registry" (§4.2, §7) — so on a bad index the state is returned
untouched together with the reported error. -/
def removeRow (st : CommandTableModel) (row : Nat) :
    CommandTableModel × Option String :=
  if row < st.commands_.length then
    ({ st with commands_ := st.commands_.eraseIdx row }, none)
  else (st, some "row index out of range")

/-- Modelled from the spec: `removeAllRows()` (declared in
`CommandTableModel.h`, line 57) "empties the row sequence" (§4.2). -/
def removeAllRows (st : CommandTableModel) : CommandTableModel :=
  { st with commands_ := [] }

/-- Modelled from the spec: `buildFromXml(elem)` (declared in
`CommandTableModel.h`, line 60) "clears the row sequence, asks CommandMap to
deserialize the document, then rebuilds the row sequence from CommandMap's
resulting key set, then re-applies `current_sort`" (§4.2). -/
def buildFromXml (st : CommandTableModel) (doc : List XmlRecord) :
    CommandTableModel :=
  applySort
    { st with
        command_map_ := deserialize st.command_map_ doc
        commands_ := allIdentities (deserialize st.command_map_ doc) }

/-- Modelled from the spec: `getRowForMessage` (declared in
`CommandTableModel.h`, line 63) performs a "linear or indexed search over
the row sequence" returning "row index or not-found" (§4.2). -/
def getRowForMessage (st : CommandTableModel) (midi_channel midi_data : Int)
    (msgType : MsgIdEnum) : Option Nat :=
  st.commands_.findIdx? (fun x => x = ⟨midi_channel, midi_data, msgType⟩)

/-- Modelled from the spec: one quiescent-point edit of the combined
registry-plus-table state.  The spec keeps the two structures "consistent by
convention of always pairing the calls" (§4.2): a structural row edit is
paired with the corresponding `bind`/`unbind`/`clear` on the registry, so
each constructor below is one such paired step. -/
inductive TableOp where
  | addRowOp (midi_channel midi_data : Int) (msgType : MsgIdEnum)
      (commandName : String)
  | removeRowOp (row : Nat)
  | removeAllRowsOp
  | sortOp (newSortColumnId : Nat) (isForwards : Bool)
  | buildFromXmlOp (doc : List XmlRecord)

/-- Modelled from the spec: executing one paired quiescent-point operation
(§4.2): add-row binds the caller-provided command name and adds the row;
remove-row unbinds the removed row's identity (an out-of-range index changes
nothing, §7); remove-all clears; sort and build-from-document as above. -/
def stepOp (st : CommandTableModel) : TableOp → CommandTableModel
  | .addRowOp ch d k nm =>
      addRow { st with command_map_ := bind st.command_map_ ⟨ch, d, k⟩ nm } ch d k
  | .removeRowOp row =>
      match st.commands_[row]? with
      | some msg =>
          { (removeRow st row).1 with
              command_map_ := unbind st.command_map_ msg }
      | none => (removeRow st row).1
  | .removeAllRowsOp =>
      { removeAllRows st with command_map_ := clear st.command_map_ }
  | .sortOp c a => sortOrderChanged st c a
  | .buildFromXmlOp doc => buildFromXml st doc

/-- Running a finite interleaving of quiescent-point operations from the
freshly initialised model. -/
def runOps (ops : List TableOp) : CommandTableModel :=
  ops.foldl stepOp CommandTableModel.init

/-- The shutdown flag of `src/Source/Main.cpp`, line 35:
`#define SHUT_DOWN_STRING "--LRSHUTDOWN"`. -/
def SHUT_DOWN_STRING : String := "--LRSHUTDOWN"

/-- Application-level state touched by the lifecycle methods of
`MIDI2LRApplication` in `src/Source/Main.cpp`: the member registry
`m_commandMap` (line 108) plus the lifecycle flags those methods set. -/
structure AppState where
  m_commandMap : CommandMap
  profileManagerWired : Bool
  mainWindowCreated : Bool
  versionCheckerStarted : Bool
  savedDefaultProfile : Option (List XmlRecord)
  quitted : Bool
deriving DecidableEq, Repr

/-- Model of `MIDI2LRApplication::initialise(commandLine)` (`Main.cpp`, lines 47–66):
when the command line differs from `SHUT_DOWN_STRING` it wires the profile
manager to the command map, creates the main window and starts the version
checker; otherwise it only quits.  Neither branch touches the contents of
`m_commandMap`. -/
def initialise (st : AppState) (commandLine : String) : AppState :=
  if commandLine ≠ SHUT_DOWN_STRING then
    { st with
        profileManagerWired := true
        mainWindowCreated := true
        versionCheckerStarted := true }
  else { st with quitted := true }

/-- Model of `MIDI2LRApplication::shutdown()` (`Main.cpp`, lines 68–78): saves the
current profile — the serialized command map — as `default.xml`, deletes the
window and quits.  It reads `m_commandMap` but does not modify it. -/
def shutdown (st : AppState) : AppState :=
  { st with
      savedDefaultProfile := some (serialize st.m_commandMap)
      mainWindowCreated := false
      quitted := true }

/-- Model of `MIDI2LRApplication::anotherInstanceStarted(commandLine)` (`Main.cpp`,
lines 88–100): invokes `shutdown` when the second instance's command line
equals `SHUT_DOWN_STRING`, otherwise does nothing. -/
def anotherInstanceStarted (st : AppState) (commandLine : String) : AppState :=
  if commandLine = SHUT_DOWN_STRING then shutdown st else st

theorem lookup_bindAll (calls : List (MidiMessageId × String)) (id : MidiMessageId) :
    lookup (bindAll [] calls) id =
      ((calls.filter (fun c => c.1 = id)).getLast?).map (fun c => c.2) := by
  induction calls using List.reverseRecOn with
  | nil => simp [bindAll, lookup, List.find?]
  | append_singleton l c ih =>
      rw [bindAll_append]
      by_cases hc : c.1 = id
      · rw [show bind (bindAll [] l) c.1 c.2 = bind (bindAll [] l) id c.2 by rw [hc]]
        rw [lookup_bind_self]
        rw [List.filter_append, List.filter_cons_of_pos (by simp [hc]),
          List.filter_nil, List.getLast?_concat]
        rfl
      · rw [lookup_bind_of_ne _ _ (fun hh => hc hh.symm)]
        rw [List.filter_append, List.filter_cons_of_neg (by simp [hc]),
          List.filter_nil, List.append_nil]
        exact ih

/-- Claim C2: for every finite sequence of `bind(identity, command_name)`
calls, after the sequence completes each identity is associated with at most
one command name — the registry's key list stays duplicate-free — namely the
command name of the last `bind` call for that identity (`none` when the
identity was never bound); `bind` is total, and rebinding an existing
identity replaces the old command name rather than creating a second
entry. -/
theorem bind_last_wins (calls : List (MidiMessageId × String)) :
    (∀ id : MidiMessageId,
        lookup (bindAll [] calls) id =
          ((calls.filter (fun c => c.1 = id)).getLast?).map (fun c => c.2)) ∧
      (allIdentities (bindAll [] calls)).Nodup :=
  ⟨fun id => lookup_bindAll calls id,
    nodup_allIdentities_bindAll [] calls (by simp [allIdentities])⟩

/-- Claim C7: removing a row at an index outside `[0, row_count)` reports
the precondition violation to the caller and returns the model — row
sequence and registry alike — unchanged. -/
theorem removeRow_out_of_range (st : CommandTableModel) (row : Nat)
    (h : st.commands_.length ≤ row) :
    removeRow st row = (st, some "row index out of range") := by
  unfold removeRow
  rw [if_neg (by omega)]

/-- Witness for `removeRow_out_of_range` at the freshly constructed model
and row index 0. -/
theorem removeRow_out_of_range_witness :
    removeRow CommandTableModel.init 0 =
      (CommandTableModel.init, some "row index out of range") :=
  removeRow_out_of_range CommandTableModel.init 0 (by decide)

/-- Claim C8: for an identity absent from the registry, `unbind` is a no-op
returning the registry unchanged, and `lookup` returns "not found" (the
empty `Option`); both are pure functions of the registry value. -/
theorem unbind_lookup_missing (m : CommandMap) (id : MidiMessageId)
    (h : id ∉ allIdentities m) :
    unbind m id = m ∧ lookup m id = none :=
  ⟨unbind_eq_self h, (lookup_eq_none_iff m id).mpr h⟩

/-- Witness for `unbind_lookup_missing` on a one-entry registry and a
missing identity. -/
theorem unbind_lookup_missing_witness :
    unbind [(⟨1, 7, .controlChange⟩, "Exposure")] ⟨2, 3, .noteOn⟩ =
        [(⟨1, 7, .controlChange⟩, "Exposure")] ∧
      lookup [(⟨1, 7, .controlChange⟩, "Exposure")] ⟨2, 3, .noteOn⟩ = none :=
  unbind_lookup_missing _ _ (by decide)

/-- Claim C9: the command-mapping core has no command-line surface: across
every command-line input, `initialise` and `anotherInstanceStarted` — the
only places in the sources that receive a command line — leave the registry
contents identical (both branches of each never mutate `m_commandMap`;
the command line only selects lifecycle actions).  No source reads an
environment variable, so the model takes none as input. -/
theorem core_ignores_command_line :
    (∀ (st : AppState) (cl cl' : String),
        (initialise st cl).m_commandMap = (initialise st cl').m_commandMap) ∧
      (∀ (st : AppState) (cl : String),
          (initialise st cl).m_commandMap = st.m_commandMap) ∧
      (∀ (st : AppState) (cl cl' : String),
          (anotherInstanceStarted st cl).m_commandMap =
            (anotherInstanceStarted st cl').m_commandMap) ∧
      (∀ (st : AppState) (cl : String),
          (anotherInstanceStarted st cl).m_commandMap = st.m_commandMap) := by
  refine ⟨?_, ?_, ?_, ?_⟩
  · intro st cl cl'
    unfold initialise
    split <;> split <;> rfl
  · intro st cl
    unfold initialise
    split <;> rfl
  · intro st cl cl'
    unfold anotherInstanceStarted shutdown
    split <;> split <;> rfl
  · intro st cl
    unfold anotherInstanceStarted shutdown
    split <;> rfl

/-- Claim C10: a freshly constructed `CommandTableModel` has `current_sort`
and `prior_sort` both `(2, true)` (column 2, ascending), so before any sort
request the active ordering is by column 2 ascending, and the very first
`sortOrderChanged` re-sorts with `(2, true)` as the tie-breaking prior key
while recording `prior_sort = (2, true)` and the new request in
`current_sort`. -/
theorem init_sort_state :
    CommandTableModel.init.current_sort = (2, true) ∧
      CommandTableModel.init.prior_sort = (2, true) ∧
      ∀ (st : CommandTableModel) (c : Nat) (a : Bool),
        st.current_sort = (2, true) → st.prior_sort = (2, true) →
        (sortOrderChanged st c a).commands_ =
            st.commands_.insertionSort (sortRel st.command_map_ (c, a) (2, true)) ∧
          (sortOrderChanged st c a).current_sort = (c, a) ∧
          (sortOrderChanged st c a).prior_sort = (2, true) := by
  refine ⟨rfl, rfl, ?_⟩
  intro st c a h1 _h2
  unfold sortOrderChanged applySort
  rw [h1]
  exact ⟨rfl, rfl, rfl⟩

/-- Witness for `init_sort_state` at the freshly constructed model with a
first sort request on column 0 ascending. -/
theorem init_sort_state_witness :
    (sortOrderChanged CommandTableModel.init 0 true).commands_ =
        CommandTableModel.init.commands_.insertionSort
          (sortRel CommandTableModel.init.command_map_ (0, true) (2, true)) ∧
      (sortOrderChanged CommandTableModel.init 0 true).current_sort = (0, true) ∧
      (sortOrderChanged CommandTableModel.init 0 true).prior_sort = (2, true) :=
  init_sort_state.2.2 CommandTableModel.init 0 true rfl rfl

/-- Claim C4 as stated is too strong: a document whose well-formed records
repeat an identity yields fewer bindings than well-formed records, because
`bind` replaces instead of duplicating.  Concretely, two well-formed records
for channel 1 / data 7 / ControlChange plus one malformed record
(channel 20) give one binding, not two. -/
theorem deserialize_partial_failure_counterexample :
    ((List.filter wellFormedRecord
          ([⟨1, 7, "ControlChange", "Exposure"⟩,
            ⟨1, 7, "ControlChange", "Contrast"⟩,
            ⟨20, 0, "ControlChange", "Fail"⟩] : List XmlRecord)).length = 2) ∧
      wellFormedRecord ⟨20, 0, "ControlChange", "Fail"⟩ = false ∧
      (deserialize []
          [⟨1, 7, "ControlChange", "Exposure"⟩,
            ⟨1, 7, "ControlChange", "Contrast"⟩,
            ⟨20, 0, "ControlChange", "Fail"⟩]).length = 1 ∧
      ¬ (deserialize []
            [⟨1, 7, "ControlChange", "Exposure"⟩,
              ⟨1, 7, "ControlChange", "Contrast"⟩,
              ⟨20, 0, "ControlChange", "Fail"⟩]).length =
          (List.filter wellFormedRecord
            ([⟨1, 7, "ControlChange", "Exposure"⟩,
              ⟨1, 7, "ControlChange", "Contrast"⟩,
              ⟨20, 0, "ControlChange", "Fail"⟩] : List XmlRecord)).length :=
  ⟨by decide, by decide, by decide, by decide⟩

/-- Claim C4 (amended): for every prior registry state and every document of
well-formed records binding pairwise-distinct identities plus one malformed
record anywhere in it, loading yields exactly one binding per well-formed
record — the malformed record is skipped rather than aborting the load —
and the result never depends on the prior registry state (no binding from
before the load survives). -/
theorem deserialize_partial_failure (m : CommandMap) (a b : List XmlRecord)
    (bad : XmlRecord) (hbad : decodeRecord bad = none)
    (hwf : ∀ r ∈ a ++ b, (decodeRecord r).isSome)
    (hnd : ((a ++ b).filterMap recordId).Nodup) :
    (deserialize m (a ++ bad :: b)).length = (a ++ b).length ∧
      deserialize m (a ++ bad :: b) = deserialize [] (a ++ b) := by
  have hskip : deserialize m (a ++ bad :: b) = deserialize [] (a ++ b) := by
    unfold deserialize clear
    rw [List.foldl_append, List.foldl_cons]
    rw [show deserializeStep (a.foldl deserializeStep []) bad =
          a.foldl deserializeStep [] by
        unfold deserializeStep
        rw [hbad]]
    rw [← List.foldl_append]
  refine ⟨?_, hskip⟩
  rw [hskip]
  have hlen :=
    foldl_deserializeStep_length (a ++ b) [] hwf hnd (by simp [allIdentities])
  simpa [deserialize, clear] using hlen

/-- Witness for `deserialize_partial_failure`: a prior registry with one old
binding, two distinct well-formed records and a malformed channel-20 record
between them. -/
theorem deserialize_partial_failure_witness :
    (deserialize [(⟨9, 9, .pitchBend⟩, "Old")]
          (([⟨1, 7, "ControlChange", "Exposure"⟩] : List XmlRecord) ++
            ⟨20, 0, "ControlChange", "Fail"⟩ ::
              ([⟨2, 65, "NoteOn", "NextPhoto"⟩] : List XmlRecord))).length =
        (([⟨1, 7, "ControlChange", "Exposure"⟩] : List XmlRecord) ++
          ([⟨2, 65, "NoteOn", "NextPhoto"⟩] : List XmlRecord)).length ∧
      deserialize [(⟨9, 9, .pitchBend⟩, "Old")]
          (([⟨1, 7, "ControlChange", "Exposure"⟩] : List XmlRecord) ++
            ⟨20, 0, "ControlChange", "Fail"⟩ ::
              ([⟨2, 65, "NoteOn", "NextPhoto"⟩] : List XmlRecord)) =
        deserialize []
          (([⟨1, 7, "ControlChange", "Exposure"⟩] : List XmlRecord) ++
            ([⟨2, 65, "NoteOn", "NextPhoto"⟩] : List XmlRecord)) :=
  deserialize_partial_failure [(⟨9, 9, .pitchBend⟩, "Old")]
    [⟨1, 7, "ControlChange", "Exposure"⟩] [⟨2, 65, "NoteOn", "NextPhoto"⟩]
    ⟨20, 0, "ControlChange", "Fail"⟩ (by decide) (by decide) (by decide)

theorem bind_eq_append_of_not_mem {m : CommandMap} {id : MidiMessageId}
    (nm : String) (h : id ∉ allIdentities m) : bind m id nm = m ++ [(id, nm)] := by
  induction m with
  | nil => rfl
  | cons p rest ih =>
      have h1 : ¬ p.1 = id := fun hh => h (by simp [allIdentities, hh])
      have h2 : id ∉ allIdentities rest := fun hh => h (List.mem_cons_of_mem _ hh)
      simp [bind, h1, ih h2]

theorem foldl_deserializeStep_serialize :
    ∀ (m acc : CommandMap), (allIdentities m).Nodup →
      (∀ p ∈ m, idInRange p.1) →
      (∀ i ∈ allIdentities m, i ∉ allIdentities acc) →
      (serialize m).foldl deserializeStep acc = acc ++ m := by
  intro m
  induction m with
  | nil => intro acc _ _ _; simp [serialize]
  | cons p rest ih =>
      intro acc hnd hrange hdisj
      have hnd0 : (p.1 :: allIdentities rest).Nodup := by
        rw [show p.1 :: allIdentities rest = allIdentities (p :: rest) from rfl]
        exact hnd
      have hnd' := List.nodup_cons.mp hnd0
      rw [show serialize (p :: rest) = encodeRecord p :: serialize rest from rfl,
        List.foldl_cons]
      have hstep : deserializeStep acc (encodeRecord p) = bind acc p.1 p.2 := by
        unfold deserializeStep
        rw [show encodeRecord p = encodeRecord (p.1, p.2) from rfl,
          decodeRecord_encodeRecord p.2 (hrange p (List.mem_cons_self p rest))]
      rw [hstep,
        bind_eq_append_of_not_mem p.2 (hdisj p.1 (by simp [allIdentities]))]
      have hrec := ih (acc ++ [p]) (by simpa [allIdentities] using hnd'.2)
        (fun q hq => hrange q (List.mem_cons_of_mem _ hq)) ?_
      · rw [hrec, List.append_assoc]
        rfl
      · intro i hi hmem
        have hkeys : allIdentities (acc ++ [p]) = allIdentities acc ++ [p.1] := by
          simp [allIdentities]
        rw [hkeys] at hmem
        rcases List.mem_append.mp hmem with h' | h'
        · exact hdisj i (List.mem_cons_of_mem _ hi) h'
        · rw [List.mem_singleton] at h'
          exact hnd'.1 (h' ▸ hi)

theorem deserialize_serialize (x m : CommandMap)
    (hnd : (allIdentities m).Nodup) (hrange : ∀ p ∈ m, idInRange p.1) :
    deserialize x (serialize m) = m := by
  unfold deserialize clear
  simpa using
    foldl_deserializeStep_serialize m [] hnd hrange (by simp [allIdentities])

/-- Claim C5: for every document of well-formed records, encoding the
registry obtained by decoding it produces a document that decodes back to
exactly the same bindings (so in particular the same set of bindings, for
any order); encoding emits exactly one record per current binding, with
every field written in the units and ranges used internally. -/
theorem serialize_roundtrip (m0 x : CommandMap) (doc : List XmlRecord)
    (_hwf : ∀ r ∈ doc, wellFormedRecord r = true) :
    deserialize x (serialize (deserialize m0 doc)) = deserialize m0 doc ∧
      (∀ id, lookup (deserialize x (serialize (deserialize m0 doc))) id =
          lookup (deserialize m0 doc) id) ∧
      (serialize (deserialize m0 doc)).length = (deserialize m0 doc).length ∧
      ∀ p ∈ deserialize m0 doc,
        encodeRecord p ∈ serialize (deserialize m0 doc) ∧
          (encodeRecord p).channel = p.1.channel ∧
          (encodeRecord p).data = p.1.data ∧
          (encodeRecord p).msgType = msgKindName p.1.kind ∧
          (encodeRecord p).commandName = p.2 := by
  have h1 := deserialize_serialize x (deserialize m0 doc)
    (nodup_allIdentities_deserialize m0 doc)
    (fun p hp => idInRange_of_mem_deserialize hp)
  refine ⟨h1, fun id => by rw [h1], by simp [serialize], ?_⟩
  intro p hp
  exact ⟨List.mem_map_of_mem _ hp, rfl, rfl, rfl, rfl⟩

/-- Witness for `serialize_roundtrip` on a two-record well-formed
document. -/
theorem serialize_roundtrip_witness :
    deserialize []
        (serialize (deserialize []
          [⟨1, 7, "ControlChange", "Exposure"⟩, ⟨2, 65, "NoteOn", "NextPhoto"⟩])) =
      deserialize []
        [⟨1, 7, "ControlChange", "Exposure"⟩, ⟨2, 65, "NoteOn", "NextPhoto"⟩] :=
  (serialize_roundtrip [] []
    [⟨1, 7, "ControlChange", "Exposure"⟩, ⟨2, 65, "NoteOn", "NextPhoto"⟩]
    (by decide)).1

theorem eraseIdx_eq_filter_of_nodup :
    ∀ (l : List MidiMessageId) (i : Nat) (a : MidiMessageId), l.Nodup →
      l[i]? = some a → l.eraseIdx i = l.filter (fun k => k ≠ a) := by
  intro l
  induction l with
  | nil => intro i a _ h; simp at h
  | cons x xs ih =>
      intro i a hnd h
      have hnd' := List.nodup_cons.mp hnd
      cases i with
      | zero =>
          have hx : x = a := by simpa using h
          subst hx
          rw [show (x :: xs).eraseIdx 0 = xs from rfl,
            List.filter_cons_of_neg (by simp)]
          symm
          rw [List.filter_eq_self]
          intro b hb
          have hbx : ¬ b = x := fun hb' => hnd'.1 (hb' ▸ hb)
          simpa using hbx
      | succ n =>
          have h' : xs[n]? = some a := by simpa using h
          have hmem : a ∈ xs := by
            rcases List.getElem?_eq_some.mp h' with ⟨hlt, hget⟩
            exact hget ▸ List.getElem_mem hlt
          have hxa : ¬ x = a := fun hh => hnd'.1 (hh ▸ hmem)
          rw [show (x :: xs).eraseIdx (n + 1) = x :: xs.eraseIdx n from rfl,
            List.filter_cons_of_pos (by simpa using hxa), ih n a hnd'.2 h']

/-- The registry/row-sequence consistency invariant of §3: the row sequence
is a permutation of the registry's key set, and the key set itself is
duplicate-free. -/
def TableInv (st : CommandTableModel) : Prop :=
  st.commands_.Perm (allIdentities st.command_map_) ∧
    (allIdentities st.command_map_).Nodup

theorem tableInv_applySort {st : CommandTableModel} (h : TableInv st) :
    TableInv (applySort st) :=
  ⟨(List.perm_insertionSort _ st.commands_).trans h.1, h.2⟩

theorem tableInv_stepOp (op : TableOp) {st : CommandTableModel}
    (h : TableInv st) : TableInv (stepOp st op) := by
  cases op with
  | addRowOp ch d k nm =>
      show TableInv (addRow { st with command_map_ := bind st.command_map_ ⟨ch, d, k⟩ nm } ch d k)
      unfold addRow
      by_cases hmem : (⟨ch, d, k⟩ : MidiMessageId) ∈ st.commands_
      · rw [if_pos hmem]
        have hkey : (⟨ch, d, k⟩ : MidiMessageId) ∈ allIdentities st.command_map_ :=
          h.1.mem_iff.mp hmem
        refine ⟨?_, ?_⟩
        · show st.commands_.Perm (allIdentities (bind st.command_map_ ⟨ch, d, k⟩ nm))
          rw [allIdentities_bind_of_mem nm hkey]
          exact h.1
        · show (allIdentities (bind st.command_map_ ⟨ch, d, k⟩ nm)).Nodup
          exact nodup_allIdentities_bind _ nm h.2
      · rw [if_neg hmem]
        apply tableInv_applySort
        refine ⟨?_, ?_⟩
        · show (st.commands_ ++ [(⟨ch, d, k⟩ : MidiMessageId)]).Perm
            (allIdentities (bind st.command_map_ ⟨ch, d, k⟩ nm))
          have hkey : (⟨ch, d, k⟩ : MidiMessageId) ∉ allIdentities st.command_map_ :=
            fun hh => hmem (h.1.mem_iff.mpr hh)
          rw [allIdentities_bind_of_not_mem nm hkey]
          exact h.1.append (List.Perm.refl _)
        · show (allIdentities (bind st.command_map_ ⟨ch, d, k⟩ nm)).Nodup
          exact nodup_allIdentities_bind _ nm h.2
  | removeRowOp row =>
      show TableInv (match st.commands_[row]? with
        | some msg =>
            { (removeRow st row).1 with command_map_ := unbind st.command_map_ msg }
        | none => (removeRow st row).1)
      rcases hget : st.commands_[row]? with _ | msg
      · have hge : ¬ row < st.commands_.length := by
          intro hlt
          rw [List.getElem?_eq_getElem hlt] at hget
          exact absurd hget (by simp)
        unfold removeRow
        rw [if_neg hge]
        exact h
      · have hlt : row < st.commands_.length :=
          (List.getElem?_eq_some.mp hget).1
        have hcnd : st.commands_.Nodup := h.1.nodup_iff.mpr h.2
        unfold removeRow
        rw [if_pos hlt]
        refine ⟨?_, ?_⟩
        · show (st.commands_.eraseIdx row).Perm
            (allIdentities (unbind st.command_map_ msg))
          rw [allIdentities_unbind,
            eraseIdx_eq_filter_of_nodup st.commands_ row msg hcnd hget]
          exact h.1.filter _
        · show (allIdentities (unbind st.command_map_ msg)).Nodup
          rw [allIdentities_unbind]
          exact h.2.filter _
  | removeAllRowsOp =>
      exact ⟨List.Perm.refl [], List.Pairwise.nil⟩
  | sortOp c a =>
      show TableInv (sortOrderChanged st c a)
      unfold sortOrderChanged
      apply tableInv_applySort
      exact ⟨h.1, h.2⟩
  | buildFromXmlOp doc =>
      show TableInv (buildFromXml st doc)
      unfold buildFromXml
      apply tableInv_applySort
      exact ⟨List.Perm.refl _, nodup_allIdentities_deserialize st.command_map_ doc⟩

/-- Claim C1: after every finite interleaving of add-row, remove-row,
remove-all-rows, sort and build-from-document quiescent-point operations,
the ordered row sequence is a permutation of the registry's current key set:
no identity absent from the registry appears, no registry identity is
missing, and no entry is duplicated. -/
theorem rowSequence_perm_registry (ops : List TableOp) :
    (runOps ops).commands_.Perm (allIdentities (runOps ops).command_map_) ∧
      (runOps ops).commands_.Nodup := by
  have haux : ∀ (l : List TableOp) (st : CommandTableModel),
      TableInv st → TableInv (l.foldl stepOp st) := by
    intro l
    induction l with
    | nil => intro st hst; exact hst
    | cons op rest ih =>
        intro st hst
        rw [List.foldl_cons]
        exact ih _ (tableInv_stepOp op hst)
  have hinv := haux ops CommandTableModel.init
    ⟨List.Perm.refl [], List.Pairwise.nil⟩
  exact ⟨hinv.1, hinv.1.nodup_iff.mpr hinv.2⟩

theorem sortRel_of_key_eq {m : CommandMap} {cur pr : Nat × Bool}
    {x y : MidiMessageId} (h : cellKey m cur.1 x = cellKey m cur.1 y)
    (h2 : dirLe (cellKey m pr.1) pr.2 x y) : sortRel m cur pr x y := by
  unfold sortRel
  rw [if_pos h]
  exact h2

theorem sortRel_of_key_ne {m : CommandMap} {cur pr : Nat × Bool}
    {x y : MidiMessageId} (h : ¬ cellKey m cur.1 x = cellKey m cur.1 y)
    (h2 : dirLe (cellKey m cur.1) cur.2 x y) : sortRel m cur pr x y := by
  unfold sortRel
  rw [if_neg h]
  exact h2

theorem sortRel_elim {m : CommandMap} {cur pr : Nat × Bool}
    {x y : MidiMessageId} (h : sortRel m cur pr x y) :
    (cellKey m cur.1 x = cellKey m cur.1 y ∧ dirLe (cellKey m pr.1) pr.2 x y) ∨
      (¬ cellKey m cur.1 x = cellKey m cur.1 y ∧
        dirLe (cellKey m cur.1) cur.2 x y) := by
  unfold sortRel at h
  by_cases hc : cellKey m cur.1 x = cellKey m cur.1 y
  · rw [if_pos hc] at h
    exact Or.inl ⟨hc, h⟩
  · rw [if_neg hc] at h
    exact Or.inr ⟨hc, h⟩

/-- Claim C3: with no intervening data change, sorting by column A, then by
column B, then by column A again (each request with its direction, the two
A-requests identical) leaves every class of rows with equal column-B keys in
exactly the relative order it had after the first column-A sort — the tie
break by the previous sort key and direction stored in `prior_sort` makes
repeated re-sorts deterministic — and after each sort `prior_sort` holds the
previous `current_sort` while `current_sort` holds the new request. -/
theorem sort_toggle_stable (m : CommandMap) (rows : List MidiMessageId)
    (cur pr : Nat × Bool) (A B : Nat) (dA dB : Bool) (_hAB : A ≠ B) :
    (∀ v : Int × String,
        (sortOrderChanged (sortOrderChanged (sortOrderChanged
                (CommandTableModel.mk m rows cur pr) A dA) B dB) A dA).commands_.filter
            (fun x => cellKey m B x = v) =
          (sortOrderChanged (CommandTableModel.mk m rows cur pr) A dA).commands_.filter
            (fun x => cellKey m B x = v)) ∧
      (sortOrderChanged (CommandTableModel.mk m rows cur pr) A dA).current_sort =
          (A, dA) ∧
      (sortOrderChanged (CommandTableModel.mk m rows cur pr) A dA).prior_sort = cur ∧
      (sortOrderChanged (sortOrderChanged
          (CommandTableModel.mk m rows cur pr) A dA) B dB).current_sort = (B, dB) ∧
      (sortOrderChanged (sortOrderChanged
          (CommandTableModel.mk m rows cur pr) A dA) B dB).prior_sort = (A, dA) ∧
      (sortOrderChanged (sortOrderChanged (sortOrderChanged
          (CommandTableModel.mk m rows cur pr) A dA) B dB) A dA).current_sort =
          (A, dA) ∧
      (sortOrderChanged (sortOrderChanged (sortOrderChanged
          (CommandTableModel.mk m rows cur pr) A dA) B dB) A dA).prior_sort =
          (B, dB) := by
  refine ⟨?_, rfl, rfl, rfl, rfl, rfl, rfl⟩
  intro v
  show (List.insertionSort (sortRel m (A, dA) (B, dB))
        (List.insertionSort (sortRel m (B, dB) (A, dA))
          (List.insertionSort (sortRel m (A, dA) cur) rows))).filter
        (fun x => cellKey m B x = v) =
      (List.insertionSort (sortRel m (A, dA) cur) rows).filter
        (fun x => cellKey m B x = v)
  have hl1 : (List.insertionSort (sortRel m (A, dA) cur) rows).Sorted
      (sortRel m (A, dA) cur) := List.sorted_insertionSort _ rows
  have hfil : ((List.insertionSort (sortRel m (A, dA) cur) rows).filter
      (fun x => cellKey m B x = v)).Sorted (sortRel m (A, dA) cur) :=
    List.Pairwise.filter _ hl1
  have hkeyB : ∀ x ∈ (List.insertionSort (sortRel m (A, dA) cur) rows).filter
      (fun x => cellKey m B x = v), cellKey m B x = v := by
    intro x hx
    exact of_decide_eq_true (List.mem_filter.mp hx).2
  have hsortBA : ((List.insertionSort (sortRel m (A, dA) cur) rows).filter
      (fun x => cellKey m B x = v)).Sorted (sortRel m (B, dB) (A, dA)) := by
    refine List.Pairwise.imp_of_mem ?_ hfil
    intro x y hx hy hr
    have hBk : cellKey m B x = cellKey m B y :=
      (hkeyB x hx).trans (hkeyB y hy).symm
    refine sortRel_of_key_eq hBk ?_
    rcases sortRel_elim hr with ⟨hk, _⟩ | ⟨_, hd⟩
    · exact dirLe_refl_of_key_eq hk
    · exact hd
  have hsortAB : ((List.insertionSort (sortRel m (A, dA) cur) rows).filter
      (fun x => cellKey m B x = v)).Sorted (sortRel m (A, dA) (B, dB)) := by
    refine List.Pairwise.imp_of_mem ?_ hfil
    intro x y hx hy hr
    have hBk : cellKey m B x = cellKey m B y :=
      (hkeyB x hx).trans (hkeyB y hy).symm
    rcases sortRel_elim hr with ⟨hk, _⟩ | ⟨hk, hd⟩
    · exact sortRel_of_key_eq hk (dirLe_refl_of_key_eq hBk)
    · exact sortRel_of_key_ne hk hd
  have hstep1 : (List.insertionSort (sortRel m (B, dB) (A, dA))
        (List.insertionSort (sortRel m (A, dA) cur) rows)).filter
        (fun x => cellKey m B x = v) =
      (List.insertionSort (sortRel m (A, dA) cur) rows).filter
        (fun x => cellKey m B x = v) := by
    rw [filter_insertionSort' (sortRel m (B, dB) (A, dA)) _
      (List.insertionSort (sortRel m (A, dA) cur) rows)]
    exact List.Sorted.insertionSort_eq hsortBA
  rw [filter_insertionSort' (sortRel m (A, dA) (B, dB)) _
    (List.insertionSort (sortRel m (B, dB) (A, dA))
      (List.insertionSort (sortRel m (A, dA) cur) rows)), hstep1]
  exact List.Sorted.insertionSort_eq hsortAB

/-- Witness for `sort_toggle_stable` on the §8 example rows, sorting by
column 0 (channel), then column 1 (data), then column 0 again. -/
theorem sort_toggle_stable_witness :
    (0 : Nat) ≠ 1 ∧
      (sortOrderChanged (sortOrderChanged (sortOrderChanged
            (CommandTableModel.mk []
              [⟨1, 7, .controlChange⟩, ⟨1, 8, .controlChange⟩, ⟨2, 1, .noteOn⟩]
              (2, true) (2, true)) 0 true) 1 true) 0 true).commands_.filter
          (fun x => cellKey [] 1 x = ((7 : Int), "")) =
        (sortOrderChanged
            (CommandTableModel.mk []
              [⟨1, 7, .controlChange⟩, ⟨1, 8, .controlChange⟩, ⟨2, 1, .noteOn⟩]
              (2, true) (2, true)) 0 true).commands_.filter
          (fun x => cellKey [] 1 x = ((7 : Int), "")) :=
  ⟨by decide,
    (sort_toggle_stable []
        [⟨1, 7, .controlChange⟩, ⟨1, 8, .controlChange⟩, ⟨2, 1, .noteOn⟩]
        (2, true) (2, true) 0 1 true true (by decide)).1 ((7 : Int), "")⟩

end MIDI2LR
